import Mathlib

/-!
Verification of the epistemic-inertia belief-dynamics library.

The development shallowly embeds the numeric routines of the repository
(`math_utils/__init__.py` and `epistemic_inertia.py`) over the real numbers:
matrices are `Matrix (Fin n) (Fin n) ℝ`, `np.exp` is `Real.exp`, and the
claims of the specification are settled as theorems about these embeddings.
-/

open Matrix

namespace EpistemicInertia

/-- Embedding of `symmetrize` from `math_utils/__init__.py`:
`return 0.5 * (M + np.swapaxes(M, -1, -2))`. -/
noncomputable def symmetrize {n : ℕ} (M : Matrix (Fin n) (Fin n) ℝ) : Matrix (Fin n) (Fin n) ℝ :=
  (1 / 2 : ℝ) • (M + Mᵀ)

/-- Embedding of `ensure_spd` from `math_utils/__init__.py`:
`Sigma = symmetrize(Sigma); Sigma = Sigma + eps * np.eye(K); return Sigma`. -/
noncomputable def ensure_spd {n : ℕ} (Sigma : Matrix (Fin n) (Fin n) ℝ) (eps : ℝ) :
    Matrix (Fin n) (Fin n) ℝ :=
  symmetrize Sigma + eps • (1 : Matrix (Fin n) (Fin n) ℝ)

lemma symmetrize_isSymm {n : ℕ} (M : Matrix (Fin n) (Fin n) ℝ) :
    (symmetrize M).IsSymm := by
  unfold Matrix.IsSymm symmetrize
  rw [transpose_smul, transpose_add, transpose_transpose, add_comm]

lemma symmetrize_of_isSymm {n : ℕ} {M : Matrix (Fin n) (Fin n) ℝ}
    (h : M.IsSymm) : symmetrize M = M := by
  unfold symmetrize
  rw [show Mᵀ = M from h]
  ext i j
  simp [Matrix.smul_apply, Matrix.add_apply]
  ring

/-- C7: `symmetrize(M)` equals `(M + Mᵀ)/2`; the result is symmetric, and
`symmetrize` is the identity on already-symmetric matrices. -/
theorem symmetrize_spec {n : ℕ} (M : Matrix (Fin n) (Fin n) ℝ) :
    symmetrize M = (1 / 2 : ℝ) • (M + Mᵀ) ∧ (symmetrize M).IsSymm ∧
      (M.IsSymm → symmetrize M = M) :=
  ⟨rfl, symmetrize_isSymm M, fun h => symmetrize_of_isSymm h⟩

/-- C7 witness: evaluation at the concrete symmetric matrix `[[1,2],[2,5]]`. -/
theorem symmetrize_spec_witness :
    symmetrize !![(1 : ℝ), 2; 2, 5] = !![(1 : ℝ), 2; 2, 5] :=
  (symmetrize_spec _).2.2 (by
    unfold Matrix.IsSymm
    ext i j
    fin_cases i <;> fin_cases j <;> simp)

/-- C1 counterexample: with `Sigma = [[-1]]` and `eps = 1/2 > 0`, the result of
`ensure_spd` is `[[-1/2]]`, which is not positive definite: `ensure_spd` does
not guarantee strictly positive eigenvalues for arbitrary square input. -/
theorem ensure_spd_counterexample :
    (0 : ℝ) < 1 / 2 ∧ ¬ (ensure_spd !![(-1 : ℝ)] (1 / 2)).PosDef := by
  refine ⟨by norm_num, ?_⟩
  rintro ⟨-, hpos⟩
  have h := hpos ![1] (by
    intro h0
    have := congrFun h0 0
    norm_num at this)
  simp [ensure_spd, symmetrize, Matrix.dotProduct, Matrix.mulVec,
    Matrix.transpose_apply, Matrix.one_apply, Fin.sum_univ_one,
    Matrix.add_apply, Matrix.smul_apply, Matrix.vecHead, Matrix.vecTail,
    Matrix.cons_val_zero, Matrix.of_apply] at h
  norm_num at h

/-- C1 (amended): `ensure_spd(Sigma, eps)` always returns a symmetric matrix,
and whenever the symmetrized input is positive semidefinite and `eps > 0`,
the result is positive definite (all eigenvalues strictly positive). -/
theorem ensure_spd_spec {n : ℕ} (Sigma : Matrix (Fin n) (Fin n) ℝ) (eps : ℝ)
    (heps : 0 < eps) (hpsd : (symmetrize Sigma).PosSemidef) :
    (ensure_spd Sigma eps).IsSymm ∧ (ensure_spd Sigma eps).PosDef := by
  have hdiag : (eps • (1 : Matrix (Fin n) (Fin n) ℝ)) =
      Matrix.diagonal (fun _ => eps) := by
    ext i j
    by_cases h : i = j <;> simp [Matrix.one_apply, h]
  constructor
  · unfold Matrix.IsSymm ensure_spd
    rw [transpose_add, transpose_smul, transpose_one, symmetrize_isSymm Sigma]
  · unfold ensure_spd
    rw [hdiag]
    exact Matrix.PosDef.posSemidef_add hpsd
      (Matrix.PosDef.diagonal fun _ => heps)

/-- C1 witness: evaluation at `Sigma = 0` (1×1), `eps = 1`. -/
theorem ensure_spd_spec_witness :
    (ensure_spd (0 : Matrix (Fin 1) (Fin 1) ℝ) 1).IsSymm ∧
      (ensure_spd (0 : Matrix (Fin 1) (Fin 1) ℝ) 1).PosDef :=
  ensure_spd_spec 0 1 one_pos (by
    have h0 : symmetrize (0 : Matrix (Fin 1) (Fin 1) ℝ) = 0 := by
      unfold symmetrize
      simp
    rw [h0]
    exact Matrix.PosSemidef.zero)

/-- Modelled from the spec: `compute_kl_matrix` lives in
`gradients/softmax_grads.py`, which is absent from the sources; the spec says
it builds the N×N matrix of pairwise KL divergences and that "the diagonal is
excluded from normalization (an agent does not attend to itself as a
neighbor)".  We represent its output by the off-diagonal pairwise KL values
`kl i j` together with that exclusion convention: the diagonal entry is +∞,
so the unnormalized weight `exp(-KL/κ)` that
`compute_social_influence_matrix` forms from it is 0 on the diagonal. -/
noncomputable def softmaxWeight {N : ℕ} (kl : Matrix (Fin N) (Fin N) ℝ)
    (kappa : ℝ) (i j : Fin N) : ℝ :=
  if i = j then 0 else Real.exp (-(kl i j) / kappa)

/-- Embedding of `compute_social_influence_matrix` from `epistemic_inertia.py`:
`beta = np.exp(-kl_matrix / kappa); beta = beta / beta.sum(axis=1, keepdims=True)`,
where `kl_matrix` is the belief-mode output of `compute_kl_matrix`, the
spec-modelled matrix above and `kappa = system.config.kappa_beta`. -/
noncomputable def compute_social_influence_matrix {N : ℕ}
    (kl : Matrix (Fin N) (Fin N) ℝ) (kappa : ℝ) : Matrix (Fin N) (Fin N) ℝ :=
  fun i j => softmaxWeight kl kappa i j / ∑ k, softmaxWeight kl kappa i k

lemma softmaxWeight_nonneg {N : ℕ} (kl : Matrix (Fin N) (Fin N) ℝ)
    (kappa : ℝ) (i j : Fin N) : 0 ≤ softmaxWeight kl kappa i j := by
  unfold softmaxWeight
  split
  · exact le_refl 0
  · exact (Real.exp_pos _).le

lemma softmaxWeight_diag {N : ℕ} (kl : Matrix (Fin N) (Fin N) ℝ)
    (kappa : ℝ) (i : Fin N) : softmaxWeight kl kappa i i = 0 := by
  unfold softmaxWeight
  simp

lemma softmaxWeight_pos {N : ℕ} (kl : Matrix (Fin N) (Fin N) ℝ)
    (kappa : ℝ) {i j : Fin N} (h : i ≠ j) : 0 < softmaxWeight kl kappa i j := by
  unfold softmaxWeight
  rw [if_neg h]
  exact Real.exp_pos _

lemma softmaxWeight_rowSum_pos {N : ℕ} (kl : Matrix (Fin N) (Fin N) ℝ)
    (kappa : ℝ) (hN : 2 ≤ N) (i : Fin N) :
    0 < ∑ k, softmaxWeight kl kappa i k := by
  have h01 : (⟨0, by omega⟩ : Fin N) ≠ (⟨1, by omega⟩ : Fin N) := by
    intro h
    have := congrArg Fin.val h
    simp at this
  obtain ⟨j, hj⟩ : ∃ j : Fin N, i ≠ j := by
    by_cases h : i = ⟨0, by omega⟩
    · exact ⟨⟨1, by omega⟩, h ▸ h01⟩
    · exact ⟨⟨0, by omega⟩, h⟩
  refine Finset.sum_pos' (fun k _ => softmaxWeight_nonneg kl kappa i k) ?_
  exact ⟨j, Finset.mem_univ j, softmaxWeight_pos kl kappa hj⟩

/-- C3: with the spec-modelled diagonal exclusion, the self-attention weight
is exactly 0, every entry is non-negative, and each row of the influence
matrix is a probability distribution over the other agents only. -/
theorem social_influence_diag_excluded {N : ℕ} (kl : Matrix (Fin N) (Fin N) ℝ)
    (kappa : ℝ) (hN : 2 ≤ N) (i : Fin N) :
    compute_social_influence_matrix kl kappa i i = 0 ∧
      (∀ j, 0 ≤ compute_social_influence_matrix kl kappa i j) ∧
      ∑ j in Finset.univ.erase i, compute_social_influence_matrix kl kappa i j = 1 := by
  have hS := softmaxWeight_rowSum_pos kl kappa hN i
  refine ⟨?_, ?_, ?_⟩
  · unfold compute_social_influence_matrix
    rw [softmaxWeight_diag, zero_div]
  · intro j
    exact div_nonneg (softmaxWeight_nonneg kl kappa i j) hS.le
  · have hdiag : compute_social_influence_matrix kl kappa i i = 0 := by
      unfold compute_social_influence_matrix
      rw [softmaxWeight_diag, zero_div]
    rw [Finset.sum_erase Finset.univ hdiag]
    unfold compute_social_influence_matrix
    rw [← Finset.sum_div]
    exact div_self hS.ne'

/-- C3 witness: a two-agent system with zero pairwise KL and unit temperature. -/
theorem social_influence_diag_excluded_witness :
    compute_social_influence_matrix (0 : Matrix (Fin 2) (Fin 2) ℝ) 1 0 0 = 0 ∧
      0 ≤ compute_social_influence_matrix (0 : Matrix (Fin 2) (Fin 2) ℝ) 1 0 1 ∧
      ∑ j in Finset.univ.erase 0,
        compute_social_influence_matrix (0 : Matrix (Fin 2) (Fin 2) ℝ) 1 0 j = 1 :=
  ⟨(social_influence_diag_excluded 0 1 (by norm_num) 0).1,
    (social_influence_diag_excluded 0 1 (by norm_num) 0).2.1 1,
    (social_influence_diag_excluded 0 1 (by norm_num) 0).2.2⟩

/-- C4 counterexample: in a system with a single agent the excluded diagonal
leaves an empty set of neighbors, the row normalizer is 0, and the row does
not sum to 1 — even though the temperature is positive and the KL matrix
finite.  The claim, quantified over every system, is therefore false. -/
theorem social_influence_rowsum_counterexample :
    (0 : ℝ) < 1 ∧
      ¬ (∑ j, compute_social_influence_matrix (0 : Matrix (Fin 1) (Fin 1) ℝ) 1 0 j = 1) := by
  refine ⟨one_pos, ?_⟩
  intro h
  rw [Fin.sum_univ_one] at h
  unfold compute_social_influence_matrix at h
  rw [Fin.sum_univ_one, softmaxWeight_diag, zero_div] at h
  norm_num at h

/-- C4 (amended): for every system of at least two agents with temperature
`kappa > 0` and finite pairwise KL matrix, every row of the influence matrix
has non-negative entries and sums to 1, and each off-diagonal entry equals
`exp(-KL_ij/kappa)` divided by the row sum of the unnormalized weights
(in which the excluded diagonal contributes 0). -/
theorem social_influence_row_stochastic {N : ℕ} (kl : Matrix (Fin N) (Fin N) ℝ)
    (kappa : ℝ) (hN : 2 ≤ N) (_hkappa : 0 < kappa) (i : Fin N) :
    (∀ j, 0 ≤ compute_social_influence_matrix kl kappa i j) ∧
      ∑ j, compute_social_influence_matrix kl kappa i j = 1 ∧
      ∀ j, j ≠ i → compute_social_influence_matrix kl kappa i j =
        Real.exp (-(kl i j) / kappa) / ∑ k, softmaxWeight kl kappa i k := by
  have hS := softmaxWeight_rowSum_pos kl kappa hN i
  refine ⟨?_, ?_, ?_⟩
  · intro j
    exact div_nonneg (softmaxWeight_nonneg kl kappa i j) hS.le
  · unfold compute_social_influence_matrix
    rw [← Finset.sum_div]
    exact div_self hS.ne'
  · intro j hj
    unfold compute_social_influence_matrix softmaxWeight
    rw [if_neg (Ne.symm hj)]

/-- C4 witness: a two-agent system with zero pairwise KL and unit temperature. -/
theorem social_influence_row_stochastic_witness :
    0 ≤ compute_social_influence_matrix (0 : Matrix (Fin 2) (Fin 2) ℝ) 1 0 1 ∧
      ∑ j, compute_social_influence_matrix (0 : Matrix (Fin 2) (Fin 2) ℝ) 1 0 j = 1 ∧
      compute_social_influence_matrix (0 : Matrix (Fin 2) (Fin 2) ℝ) 1 0 1 =
        Real.exp (-((0 : Matrix (Fin 2) (Fin 2) ℝ) 0 1) / 1) /
          ∑ k, softmaxWeight (0 : Matrix (Fin 2) (Fin 2) ℝ) 1 0 k :=
  ⟨(social_influence_row_stochastic 0 1 (by norm_num) one_pos 0).1 1,
    (social_influence_row_stochastic 0 1 (by norm_num) one_pos 0).2.1,
    (social_influence_row_stochastic 0 1 (by norm_num) one_pos 0).2.2 1
      (by intro h; exact absurd (congrArg Fin.val h) (by norm_num))⟩

/-- C6: `compute_social_influence_matrix` performs no validation of the
temperature.  At `kappa_beta = -1` (a two-agent system with zero pairwise
KL) the code silently computes and returns normalized weights — the full
attention goes to the other agent and the row sums to 1 — instead of raising
a numeric-domain error as the spec requires. -/
theorem social_influence_negative_temperature_no_error :
    compute_social_influence_matrix (0 : Matrix (Fin 2) (Fin 2) ℝ) (-1) 0 1 = 1 ∧
      ∑ j, compute_social_influence_matrix (0 : Matrix (Fin 2) (Fin 2) ℝ) (-1) 0 j = 1 := by
  have h01 : (0 : Fin 2) ≠ 1 := by
    intro h
    exact absurd (congrArg Fin.val h) (by norm_num)
  have hw0 : softmaxWeight (0 : Matrix (Fin 2) (Fin 2) ℝ) (-1) 0 0 = 0 :=
    softmaxWeight_diag 0 (-1) 0
  have hw1 : softmaxWeight (0 : Matrix (Fin 2) (Fin 2) ℝ) (-1) 0 1 = 1 := by
    unfold softmaxWeight
    rw [if_neg h01]
    simp
  have hS : ∑ k, softmaxWeight (0 : Matrix (Fin 2) (Fin 2) ℝ) (-1) 0 k = 1 := by
    rw [Fin.sum_univ_two, hw0, hw1, zero_add]
  constructor
  · unfold compute_social_influence_matrix
    rw [hw1, hS, div_one]
  · unfold compute_social_influence_matrix
    rw [Fin.sum_univ_two, hw0, hw1, hS, zero_div, div_one, zero_add]

lemma blockIdx_lt {n K : ℕ} (i : Fin n) (k : Fin K) :
    i.val * K + k.val < n * K := by
  have hk : k.val < K := k.isLt
  have hi : i.val + 1 ≤ n := i.isLt
  calc i.val * K + k.val < i.val * K + K := by omega
    _ = (i.val + 1) * K := by ring
    _ ≤ n * K := Nat.mul_le_mul_right K hi

/-- Index of row/column `k` of the `i`-th diagonal block inside the flat
`(n·K)×(n·K)` mass matrix, matching the slice `M[i*K:(i+1)*K, i*K:(i+1)*K]`. -/
def blockIdx {n K : ℕ} (i : Fin n) (k : Fin K) : Fin (n * K) :=
  ⟨i.val * K + k.val, blockIdx_lt i k⟩

/-- The `i`-th K×K diagonal block `M[i*K:(i+1)*K, i*K:(i+1)*K]` of the mass
matrix, as extracted by `compute_epistemic_inertia`. -/
def diagBlock {n K : ℕ} (M : Matrix (Fin (n * K)) (Fin (n * K)) ℝ) (i : Fin n) :
    Matrix (Fin K) (Fin K) ℝ :=
  fun a b => M (blockIdx i a) (blockIdx i b)

/-- Embedding of `compute_epistemic_inertia` from `epistemic_inertia.py`:
`inertia[i] = np.trace(M[i*K:(i+1)*K, i*K:(i+1)*K]) / K`, where
`M = build_mu_mass_matrix(system)`.  The builder lives in
`geometry/multi_agent_mass_matrix.py`, absent from the sources, so `M` is
taken as an arbitrary `(n·K)×(n·K)` real matrix and the claim is settled for
every such matrix. -/
noncomputable def compute_epistemic_inertia {n K : ℕ}
    (M : Matrix (Fin (n * K)) (Fin (n * K)) ℝ) : Fin n → ℝ :=
  fun i => (diagBlock M i).trace / K

/-- Specification-side value for claim C5, written from the words of the
spec: the trace of the `i`-th K×K diagonal block (the sum of its diagonal
entries) divided by K. -/
noncomputable def specBlockTraceOverK {n K : ℕ}
    (M : Matrix (Fin (n * K)) (Fin (n * K)) ℝ) (i : Fin n) : ℝ :=
  (∑ k : Fin K, M (blockIdx i k) (blockIdx i k)) / K

/-- C5: for every mass matrix `M` and every agent `i`, the inertia score
returned by `compute_epistemic_inertia` is the trace of the `i`-th K×K
diagonal block of `M` divided by K. -/
theorem compute_epistemic_inertia_spec {n K : ℕ}
    (M : Matrix (Fin (n * K)) (Fin (n * K)) ℝ) (i : Fin n) :
    compute_epistemic_inertia M i = specBlockTraceOverK M i := by
  unfold compute_epistemic_inertia specBlockTraceOverK Matrix.trace diagBlock
  rfl

/-- Minimal model of IEEE-style numpy float scalars, sufficient to trace how
`ensure_spd` treats non-finite entries: a value is a finite rational, NaN, or
a signed infinity. -/
inductive FloatVal where
  | fin (q : ℚ)
  | nan
  | posinf
  | neginf
deriving DecidableEq

/-- IEEE-style addition on the modelled scalars: NaN propagates through every
operation, and opposite infinities produce NaN. -/
def FloatVal.add : FloatVal → FloatVal → FloatVal
  | FloatVal.nan, _ => FloatVal.nan
  | _, FloatVal.nan => FloatVal.nan
  | FloatVal.posinf, FloatVal.neginf => FloatVal.nan
  | FloatVal.neginf, FloatVal.posinf => FloatVal.nan
  | FloatVal.posinf, _ => FloatVal.posinf
  | _, FloatVal.posinf => FloatVal.posinf
  | FloatVal.neginf, _ => FloatVal.neginf
  | _, FloatVal.neginf => FloatVal.neginf
  | FloatVal.fin a, FloatVal.fin b => FloatVal.fin (a + b)

/-- Multiplication by the positive constant 0.5, as in `0.5 * (M + Mᵀ)`. -/
def FloatVal.half : FloatVal → FloatVal
  | FloatVal.fin a => FloatVal.fin (a / 2)
  | FloatVal.nan => FloatVal.nan
  | FloatVal.posinf => FloatVal.posinf
  | FloatVal.neginf => FloatVal.neginf

/-- Embedding of `symmetrize` over the modelled float scalars. -/
def float_symmetrize {n : ℕ} (M : Matrix (Fin n) (Fin n) FloatVal) :
    Matrix (Fin n) (Fin n) FloatVal :=
  fun i j => FloatVal.half (FloatVal.add (M i j) (M j i))

/-- Embedding of `ensure_spd` over the modelled float scalars:
`symmetrize(Sigma) + eps * np.eye(K)` entrywise, with no validation of the
input anywhere in the function body. -/
def float_ensure_spd {n : ℕ} (M : Matrix (Fin n) (Fin n) FloatVal) (eps : ℚ) :
    Matrix (Fin n) (Fin n) FloatVal :=
  fun i j => FloatVal.add (float_symmetrize M i j)
    (if i = j then FloatVal.fin eps else FloatVal.fin 0)

/-- C2: `ensure_spd` contains no numeric-domain check.  Given the covariance
`[[NaN]]` (not symmetrizable to SPD) and the default `eps = 1e-6`, it returns
the matrix `[[NaN]]` — the bad entry is propagated to the caller instead of
failing fast with a numeric-domain error as the spec requires. -/
theorem ensure_spd_nan_no_error :
    float_ensure_spd (fun _ _ => FloatVal.nan : Matrix (Fin 1) (Fin 1) FloatVal)
        (1 / 1000000) =
      (fun _ _ => FloatVal.nan) := by
  funext i j
  simp [float_ensure_spd, float_symmetrize, FloatVal.add, FloatVal.half]

/-- Preset scenarios, the `SociologyPresets` enum of `epistemic_inertia.py`. -/
inductive SociologyPresets where
  | consensus
  | polarization
  | echo_chambers
  | expert_vs_novice
  | backfire
  | neutral
deriving DecidableEq

/-- Internal per-agent configuration `AgentConfig` (defined in `config.py`,
absent from the sources); the fields are the five keyword arguments passed by
`SociologyConfig.to_agent_config`. -/
structure AgentConfig where
  K : ℕ
  mu_scale : ℚ
  sigma_scale : ℚ
  lr_mu_q : ℚ
  lr_sigma_q : ℚ
deriving DecidableEq

/-- The `SociologyConfig` dataclass of `epistemic_inertia.py`. -/
structure SociologyConfig where
  belief_dimensions : ℕ
  initial_belief_spread : ℚ
  prior_strength : ℚ
  social_influence_strength : ℚ
  uncertainty_level : ℚ
  learning_rate : ℚ
  temperature : ℚ
deriving DecidableEq

/-- Default field values of `SociologyConfig`. -/
def SociologyConfig.default : SociologyConfig :=
  ⟨3, 1/2, 3/10, 1/2, 3/10, 1/10, 1⟩

/-- Embedding of `SociologyConfig.to_agent_config`. -/
def SociologyConfig.to_agent_config (c : SociologyConfig) : AgentConfig :=
  ⟨c.belief_dimensions, c.initial_belief_spread, c.uncertainty_level,
    c.learning_rate, c.learning_rate * (1/10)⟩

/-- Embedding of `get_preset_config` from `epistemic_inertia.py`; each preset
overrides some fields of the default `SociologyConfig`. -/
def get_preset_config : SociologyPresets → SociologyConfig
  | SociologyPresets.consensus => ⟨3, 1/10, 1/10, 4/5, 1/5, 1/10, 1⟩
  | SociologyPresets.polarization => ⟨3, 1, 1/2, 3/10, 3/10, 1/10, 1⟩
  | SociologyPresets.echo_chambers => ⟨3, 4/5, 3/5, 1/5, 2/5, 1/10, 1⟩
  | SociologyPresets.expert_vs_novice => ⟨3, 3/10, 2/5, 1/2, 1/2, 1/10, 1⟩
  | SociologyPresets.backfire => ⟨3, 1/2, 9/10, 1/10, 1/10, 1/10, 1⟩
  | SociologyPresets.neutral => SociologyConfig.default

/-- Modelled from the spec: the `Agent` class (in `agent/agents.py`, absent
from the sources) is built from an integer id, a configuration and a seeded
random source; we record the constructor arguments, representing the random
source by the seed argument passed to `np.random.default_rng`
(`none` = unseeded). -/
structure Agent where
  agent_id : ℕ
  config : AgentConfig
  rngSeed : Option ℤ
deriving DecidableEq

/-- Embedding of the Python expression `seed + i if seed else None`: the
conditional tests truthiness, so both `seed = None` and `seed = 0` fall to
`None` (an unseeded generator); every other integer seed yields `seed + i`. -/
def rngArg : Option ℤ → ℕ → Option ℤ
  | none, _ => none
  | some s, i => if s ≠ 0 then some (s + i) else none

/-- The loop body of `create_agents`: iterate over the indices, threading the
single mutable `agent_config` object (the source mutates it in place for the
expert-vs-novice and polarization presets) and appending one `Agent` per
index. -/
def createAgentsAux (preset : SociologyPresets) (n : ℕ) (seed : Option ℤ) :
    AgentConfig → List ℕ → List Agent
  | _, [] => []
  | cfg, i :: rest =>
    let cfg1 : AgentConfig :=
      if preset = SociologyPresets.expert_vs_novice then
        ⟨cfg.K, cfg.mu_scale, if (i : ℚ) < (n : ℚ) * (1/5) then 1/10 else 1/2,
          cfg.lr_mu_q, cfg.lr_sigma_q⟩
      else cfg
    let cfg2 : AgentConfig :=
      if preset = SociologyPresets.polarization then
        ⟨cfg1.K, if i < n / 2 then 1/2 else -(1/2), cfg1.sigma_scale,
          cfg1.lr_mu_q, cfg1.lr_sigma_q⟩
      else cfg1
    ⟨i, cfg2, rngArg seed i⟩ :: createAgentsAux preset n seed cfg2 rest

/-- Embedding of `create_agents` from `epistemic_inertia.py`. -/
def create_agents (n : ℕ) (preset : SociologyPresets)
    (config : Option SociologyConfig) (seed : Option ℤ) : List Agent :=
  createAgentsAux preset n seed
    ((config.getD (get_preset_config preset)).to_agent_config) (List.range n)

lemma createAgentsAux_map_id (preset : SociologyPresets) (n : ℕ)
    (seed : Option ℤ) :
    ∀ (l : List ℕ) (cfg : AgentConfig),
      (createAgentsAux preset n seed cfg l).map Agent.agent_id = l := by
  intro l
  induction l with
  | nil => intro cfg; rfl
  | cons i rest ih =>
    intro cfg
    simp only [createAgentsAux, List.map_cons, List.cons.injEq]
    exact ⟨trivial, ih _⟩

lemma createAgentsAux_map_rng (preset : SociologyPresets) (n : ℕ)
    (seed : Option ℤ) :
    ∀ (l : List ℕ) (cfg : AgentConfig),
      (createAgentsAux preset n seed cfg l).map Agent.rngSeed =
        l.map (rngArg seed) := by
  intro l
  induction l with
  | nil => intro cfg; rfl
  | cons i rest ih =>
    intro cfg
    simp only [createAgentsAux, List.map_cons, List.cons.injEq]
    exact ⟨trivial, ih _⟩

/-- C8: `create_agents` returns exactly `n` agents, whose ids are
`0, 1, ..., n-1` in list order, for every preset, configuration and seed. -/
theorem create_agents_ids (n : ℕ) (preset : SociologyPresets)
    (config : Option SociologyConfig) (seed : Option ℤ) :
    (create_agents n preset config seed).length = n ∧
      (create_agents n preset config seed).map Agent.agent_id = List.range n := by
  have h := createAgentsAux_map_id preset n seed (List.range n)
    ((config.getD (get_preset_config preset)).to_agent_config)
  refine ⟨?_, h⟩
  have hlen := congrArg List.length h
  simpa using hlen

/-- C9: agent `i` is handed the rng seed `seed + i` exactly when the global
seed is a nonzero integer; when the seed is `None` or `0` the per-agent
random source is constructed unseeded, so reproducibility is not guaranteed
in those cases. -/
theorem create_agents_seeding (n : ℕ) (preset : SociologyPresets)
    (config : Option SociologyConfig) (seed : Option ℤ) (i : ℕ) (hi : i < n) :
    ((create_agents n preset config seed).map Agent.rngSeed)[i]? =
        some (rngArg seed i) ∧
      (∀ s : ℤ, s ≠ 0 → rngArg (some s) i = some (s + i)) ∧
      rngArg (some 0) i = none ∧ rngArg none i = none := by
  refine ⟨?_, ?_, rfl, rfl⟩
  · unfold create_agents
    rw [createAgentsAux_map_rng]
    rw [List.getElem?_map, List.getElem?_range hi]
    rfl
  · intro s hs
    simp only [rngArg]
    rw [if_pos hs]

/-- C9 witness: two agents, global seed 5; agent 1 gets seed 6, while seed 0
and seed `None` both construct unseeded sources. -/
theorem create_agents_seeding_witness :
    ((create_agents 2 SociologyPresets.neutral none (some 5)).map
        Agent.rngSeed)[1]? = some (rngArg (some 5) 1) ∧
      rngArg (some 5) 1 = some ((5 : ℤ) + (1 : ℕ)) ∧
      rngArg (some 0) 1 = none ∧ rngArg none 1 = none :=
  ⟨(create_agents_seeding 2 SociologyPresets.neutral none (some 5) 1
      (by norm_num)).1,
    (create_agents_seeding 2 SociologyPresets.neutral none (some 5) 1
      (by norm_num)).2.1 5 (by norm_num),
    (create_agents_seeding 2 SociologyPresets.neutral none (some 5) 1
      (by norm_num)).2.2.1,
    (create_agents_seeding 2 SociologyPresets.neutral none (some 5) 1
      (by norm_num)).2.2.2⟩

/-- Euclidean distance `np.linalg.norm(beliefs[i] - beliefs[j])` between two
collapsed belief vectors. -/
noncomputable def beliefDistance {K : ℕ} (x y : Fin K → ℝ) : ℝ :=
  Real.sqrt (∑ k, (x k - y k) ^ 2)

/-- The pairwise-distance list built by the double loop of
`compute_polarization`: `for i in range(n): for j in range(i+1, n)` appends
the distance between agents `i` and `j`. -/
noncomputable def pairwiseDistances {K : ℕ} : List (Fin K → ℝ) → List ℝ
  | [] => []
  | x :: xs => xs.map (beliefDistance x) ++ pairwiseDistances xs

/-- Population mean, `np.mean`. -/
noncomputable def listMean (l : List ℝ) : ℝ := l.sum / l.length

/-- Population variance, `np.var` (mean of squared deviations). -/
noncomputable def listVar (l : List ℝ) : ℝ :=
  ((l.map fun d => (d - listMean l) ^ 2).sum) / l.length

/-- Embedding of `compute_polarization` from `epistemic_inertia.py`.  Each
agent is represented by its collapsed belief vector (the source averages
`mu_q` over all leading axes to obtain one K-vector per agent); the result is
`np.var(distances) / (np.mean(distances) + 1e-8)`, or `0.0` when the distance
list is empty. -/
noncomputable def compute_polarization {K : ℕ} (beliefs : List (Fin K → ℝ)) : ℝ :=
  let distances := pairwiseDistances beliefs
  if distances.length = 0 then 0
  else listVar distances / (listMean distances + 1 / 100000000)

lemma pairwiseDistances_nonneg {K : ℕ} (bs : List (Fin K → ℝ)) :
    ∀ d ∈ pairwiseDistances bs, 0 ≤ d := by
  induction bs with
  | nil =>
    intro d hd
    simp [pairwiseDistances] at hd
  | cons x xs ih =>
    intro d hd
    rw [pairwiseDistances, List.mem_append] at hd
    rcases hd with hd | hd
    · obtain ⟨y, hy, rfl⟩ := List.mem_map.mp hd
      exact Real.sqrt_nonneg _
    · exact ih d hd

lemma listVar_nonneg (l : List ℝ) : 0 ≤ listVar l := by
  unfold listVar
  apply div_nonneg
  · apply List.sum_nonneg
    intro x hx
    obtain ⟨d, hd, rfl⟩ := List.mem_map.mp hx
    positivity
  · positivity

lemma listMean_nonneg {l : List ℝ} (h : ∀ d ∈ l, 0 ≤ d) : 0 ≤ listMean l := by
  unfold listMean
  exact div_nonneg (List.sum_nonneg h) (by positivity)

/-- C10: `compute_polarization` returns exactly 0 for systems with fewer
than two agents (the pairwise-distance list is empty), and its value is
non-negative for every system. -/
theorem compute_polarization_spec {K : ℕ} (beliefs : List (Fin K → ℝ)) :
    (beliefs.length < 2 → compute_polarization beliefs = 0) ∧
      0 ≤ compute_polarization beliefs := by
  constructor
  · intro h
    have hd : pairwiseDistances beliefs = [] := by
      match beliefs with
      | [] => rfl
      | [x] => simp [pairwiseDistances]
      | x :: y :: rest => exact absurd h (by simp)
    unfold compute_polarization
    rw [hd]
    simp
  · unfold compute_polarization
    by_cases h : (pairwiseDistances beliefs).length = 0
    · simp [h]
    · simp only [h, if_false]
      apply div_nonneg (listVar_nonneg _)
      have hmean := listMean_nonneg (pairwiseDistances_nonneg beliefs)
      linarith

/-- C10 witness: a single agent with the zero belief vector. -/
theorem compute_polarization_spec_witness :
    compute_polarization [(fun _ => 0 : Fin 1 → ℝ)] = 0 ∧
      0 ≤ compute_polarization [(fun _ => 0 : Fin 1 → ℝ)] :=
  ⟨(compute_polarization_spec _).1 (by norm_num),
    (compute_polarization_spec _).2⟩

end EpistemicInertia
